import Mathlib

/-!
Shallow embedding of `src/index.ts` (issuance-calc): the paginated account
aggregation loop of `calculateTokenInfo`, the `unbonding` ledger sum, and the
composition of the two into the summary record, all at one frozen snapshot.
Balances are JavaScript `bigint` (arbitrary-precision, non-negative in this
domain), modelled by `Nat`.
-/

namespace IssuanceCalc

/-- Account balance record: the four components destructured per entry in the
source (`free`, `feeFrozen`, `miscFrozen`, `reserved`). -/
structure AccountData where
  free : Nat
  feeFrozen : Nat
  miscFrozen : Nat
  reserved : Nat
deriving DecidableEq

/-- One account-table entry: storage key paired with the balance data.
Keys are opaque byte sequences totally ordered by the storage layer; we model
them by `Nat`. -/
abbrev Entry := Nat × AccountData

/-- Page size used by `fetchAccounts` (`pageSize: 1000` in the source). -/
def pageSize : Nat := 1000

/-- Storage order: keys are strictly increasing along the table. -/
def keyLt (a b : Entry) : Prop := a.1 < b.1

instance : DecidableRel keyLt := fun a b => inferInstanceAs (Decidable (a.1 < b.1))

/-- Model of `api.query.system.account.entriesPaged({pageSize: 1000, startKey})`
against a frozen snapshot whose full content is `table`, listed in storage key
order: up to `pageSize` entries, starting after the position of `startKey` when
one is given. -/
def fetchAccounts (table : List Entry) (startKey : Option Nat) : List Entry :=
  match startKey with
  | none => table.take pageSize
  | some k => (table.dropWhile (fun e => e.1 ≤ k)).take pageSize

/-- The numeric helper `max(a, b) = a > b ? a : b` from the source. -/
def max (a b : Nat) : Nat := if a > b then a else b

/-- The three running accumulators of `calculateTokenInfo`. -/
structure RunningTotals where
  runningTotal : Nat
  runningLockedUp : Nat
  runningReserved : Nat
deriving DecidableEq

/-- The body of the `for` loop over one page:
`runningTotal += free + reserved`,
`runningLockedUp += max(miscFrozen, feeFrozen)`,
`runningReserved += reserved`. -/
def processEntry (acc : RunningTotals) (e : Entry) : RunningTotals :=
  { runningTotal := acc.runningTotal + (e.2.free + e.2.reserved)
    runningLockedUp := acc.runningLockedUp + max e.2.miscFrozen e.2.feeFrozen
    runningReserved := acc.runningReserved + e.2.reserved }

/-- One trace item: the `startKey` sent to `fetchAccounts` and the page
received in return. -/
abbrev PageReq := Option Nat × List Entry

/-- The `while (accounts.length > 0)` loop of `calculateTokenInfo`,
instrumented with the trace of page requests. Arguments after `table`:
remaining `fuel` (the real loop terminates because the snapshot table is
finite and every page advances strictly past its last key; `none` models fuel
exhaustion and never occurs at the fuel used by `calculateTokenInfo`, proved
below), the current page, the start key that fetched it, the accumulators,
`count`, and the number of page requests made so far. -/
def scanLoop (table : List Entry) :
    Nat → List Entry → Option Nat → RunningTotals → Nat → Nat →
      Option (RunningTotals × Nat × Nat × List PageReq)
  | _, [], sk, acc, count, reqs => some (acc, count, reqs, [(sk, [])])
  | 0, _ :: _, _, _, _, _ => none
  | fuel + 1, e :: es, sk, acc, count, reqs =>
    let next := (List.getLast (e :: es) (List.cons_ne_nil e es)).1
    let acc2 := (e :: es).foldl processEntry acc
    match scanLoop table fuel (fetchAccounts table (some next)) (some next) acc2
        (count + (e :: es).length) (reqs + 1) with
    | none => none
    | some (r, c, q, tr) => some (r, c, q, (sk, e :: es) :: tr)

/-- One pending-unbond chunk of a staking ledger (`UnlockChunk { value }`). -/
structure UnlockChunk where
  value : Nat
deriving DecidableEq

/-- A staking-ledger value: its `unlocking` chunk list. -/
structure StakingLedger where
  unlocking : List UnlockChunk
deriving DecidableEq

/-- A staking-ledger table entry: account key with the optional ledger codec;
`none` models an absent value, on which the source calls `.unwrap()` and
throws. -/
abbrev LedgerEntry := Nat × Option StakingLedger

/-- The inner reduce of `unbonding`: sum of the `value` fields of one ledger's
`unlocking` list. -/
def chunkSum (l : StakingLedger) : Nat :=
  l.unlocking.foldl (fun unl c => unl + c.value) 0

/-- Model of `unbonding`: reduces over all ledger entries, adding each entry's
unlocking-chunk sum; `ledger.unwrap()` throws on an absent (`none`) value,
modelled by propagating `none`. -/
def unbonding (ledgers : List LedgerEntry) : Option Nat :=
  ledgers.foldl
    (fun acc e =>
      match acc, e.2 with
      | some a, some l => some (a + chunkSum l)
      | _, _ => none)
    (some 0)

/-- The result record of `calculateTokenInfo`. -/
structure SummaryResult where
  lockedUp : Nat
  total : Nat
  reserved : Nat
  unbonding : Nat
deriving DecidableEq

/-- Model of `calculateTokenInfo`: the paged account scan (first request with
no start key, request counter starting at that first request), then
`unbonding`, assembled into the result record. -/
def calculateTokenInfo (table : List Entry) (ledgers : List LedgerEntry) :
    Option SummaryResult :=
  match scanLoop table (table.length + 1) (fetchAccounts table none) none ⟨0, 0, 0⟩ 0 1 with
  | none => none
  | some (acc, _count, _reqs, _tr) =>
    match unbonding ledgers with
    | none => none
    | some u =>
      some { lockedUp := acc.runningLockedUp, total := acc.runningTotal,
             reserved := acc.runningReserved, unbonding := u }

/-- The same composition with the two aggregators invoked in the opposite
order (ledger aggregator first). -/
def composeLedgerFirst (table : List Entry) (ledgers : List LedgerEntry) :
    Option SummaryResult :=
  match unbonding ledgers with
  | none => none
  | some u =>
    match scanLoop table (table.length + 1) (fetchAccounts table none) none ⟨0, 0, 0⟩ 0 1 with
    | none => none
    | some (acc, _count, _reqs, _tr) =>
      some { lockedUp := acc.runningLockedUp, total := acc.runningTotal,
             reserved := acc.runningReserved, unbonding := u }

/-- Number of nonempty pages needed for `m` entries at page size `pageSize`:
the ceiling of `m / pageSize`. -/
def numPages (m : Nat) : Nat := (m + (pageSize - 1)) / pageSize

/-- Key of the last entry of a page, when the page is nonempty. -/
def lastKey (l : List Entry) : Option Nat := l.getLast?.map Prod.fst

/-- Adjacent requests are chained: the earlier page is nonempty and the later
request's start key is the key of the earlier page's last entry. -/
def chained (a b : PageReq) : Prop := a.2 ≠ [] ∧ b.1 = lastKey a.2

/-! Helper lemmas about pagination over a table with strictly increasing keys. -/

lemma key_le_getLast :
    ∀ (l : List Entry), l.Pairwise keyLt → ∀ (h : l ≠ []), ∀ a ∈ l, a.1 ≤ (l.getLast h).1 := by
  intro l
  induction l with
  | nil => intro _ h; exact absurd rfl h
  | cons x t ih =>
    intro hp h a ha
    cases t with
    | nil =>
      rcases List.mem_singleton.mp ha with rfl
      simp [List.getLast]
    | cons y u =>
      rw [List.getLast_cons (List.cons_ne_nil y u)]
      rcases List.mem_cons.mp ha with rfl | ha2
      · have hx : ∀ b ∈ y :: u, keyLt a b := (List.pairwise_cons.mp hp).1
        exact le_of_lt (hx _ (List.getLast_mem (List.cons_ne_nil y u)))
      · exact ih (List.pairwise_cons.mp hp).2 (List.cons_ne_nil y u) a ha2

lemma dropWhile_le_append :
    ∀ (pre suf : List Entry) (k : Nat),
      (∀ a ∈ pre, a.1 ≤ k) → (∀ b ∈ suf, k < b.1) →
      (pre ++ suf).dropWhile (fun e => e.1 ≤ k) = suf := by
  intro pre
  induction pre with
  | nil =>
    intro suf k _ hsuf
    cases suf with
    | nil => simp
    | cons b u =>
      simp only [List.nil_append, List.dropWhile_cons]
      have hb : ¬ (b.1 ≤ k) := not_le.mpr (hsuf b (List.mem_cons_self b u))
      simp [hb]
  | cons a t ih =>
    intro suf k hpre hsuf
    simp only [List.cons_append, List.dropWhile_cons]
    have ha : a.1 ≤ k := hpre a (List.mem_cons_self a t)
    rw [if_pos (decide_eq_true ha)]
    exact ih suf k (fun x hx => hpre x (List.mem_cons_of_mem a hx)) hsuf

lemma take_page_length (d : List Entry) : d.take ((d.take pageSize).length) = d.take pageSize := by
  rw [List.length_take]
  rcases le_total pageSize d.length with h | h
  · rw [min_eq_left h]
  · rw [min_eq_right h, List.take_length, List.take_of_length_le h]

lemma take_add_page (table : List Entry) (n : Nat) :
    table.take (n + ((table.drop n).take pageSize).length)
      = table.take n ++ (table.drop n).take pageSize := by
  rw [List.take_add]
  congr 1
  exact take_page_length (table.drop n)

lemma drop_n2_eq (table : List Entry) (n : Nat) :
    table.drop (n + ((table.drop n).take pageSize).length) = table.drop (n + pageSize) := by
  rw [List.length_take, List.length_drop]
  rcases le_total pageSize (table.length - n) with h | h
  · rw [min_eq_left h]
  · rw [min_eq_right h, List.drop_eq_nil_of_le (by omega), List.drop_eq_nil_of_le (by omega)]

lemma drop_split_page (table : List Entry) (n : Nat) :
    table.drop n
      = (table.drop n).take pageSize
        ++ table.drop (n + ((table.drop n).take pageSize).length) := by
  rw [drop_n2_eq, ← List.drop_drop]
  exact (List.take_append_drop pageSize (table.drop n)).symm

lemma numPages_zero : numPages 0 = 0 := by
  simp [numPages, pageSize]

lemma numPages_step (m : Nat) (hm : 0 < m) :
    numPages m = numPages (m - min pageSize m) + 1 := by
  simp only [numPages, pageSize]
  omega

lemma fetch_next (table : List Entry) (hs : table.Pairwise keyLt) (n k : Nat)
    (hk : lastKey ((table.drop n).take pageSize) = some k) :
    fetchAccounts table (some k)
      = (table.drop (n + ((table.drop n).take pageSize).length)).take pageSize := by
  set page := (table.drop n).take pageSize with hpagedef
  have hne : page ≠ [] := by
    intro h
    rw [h] at hk
    simp [lastKey] at hk
  have hkval : k = (page.getLast hne).1 := by
    rw [lastKey, List.getLast?_eq_getLast page hne] at hk
    simpa using hk.symm
  set n2 := n + page.length with hn2
  have htake : table.take n2 = table.take n ++ page := take_add_page table n
  have hpw2 : (table.take n2).Pairwise keyLt :=
    List.Pairwise.sublist (List.take_sublist n2 table) hs
  have hpwpage : page.Pairwise keyLt :=
    List.Pairwise.sublist ((List.take_sublist pageSize (table.drop n)).trans (List.drop_sublist n table)) hs
  have hpre : ∀ a ∈ table.take n2, a.1 ≤ k := by
    intro a ha
    rw [htake] at ha hpw2
    rcases List.mem_append.mp ha with h1 | h2
    · have := (List.pairwise_append.mp hpw2).2.2 a h1 (page.getLast hne) (List.getLast_mem hne)
      rw [hkval]
      exact le_of_lt this
    · rw [hkval]
      exact key_le_getLast page hpwpage hne a h2
  have hsuf : ∀ b ∈ table.drop n2, k < b.1 := by
    intro b hb
    have hsplit : table = table.take n2 ++ table.drop n2 := (List.take_append_drop n2 table).symm
    have hpwall : (table.take n2 ++ table.drop n2).Pairwise keyLt := by rw [← hsplit]; exact hs
    have hmem : page.getLast hne ∈ table.take n2 := by
      rw [htake]
      exact List.mem_append_right _ (List.getLast_mem hne)
    have := (List.pairwise_append.mp hpwall).2.2 _ hmem b hb
    rw [hkval]
    exact this
  have hdw : table.dropWhile (fun e => e.1 ≤ k) = table.drop n2 := by
    conv_lhs => rw [(List.take_append_drop n2 table).symm]
    exact dropWhile_le_append _ _ k hpre hsuf
  simp only [fetchAccounts]
  rw [hdw]

/-- Main loop invariant: starting the instrumented loop at the page that
begins after `n` already-processed entries (with matching `count = n`), the
loop succeeds, folds exactly the remaining entries, reports the table's
cardinality as the final count, makes one request per remaining nonempty page
plus the final empty one, and produces a trace whose pages concatenate to the
remaining entries, are each bounded by `pageSize`, and are chained by
last-entry keys. -/
lemma scanLoop_spec (table : List Entry) (hs : table.Pairwise keyLt) :
    ∀ (fuel n : Nat) (sk : Option Nat) (acc : RunningTotals) (reqs : Nat),
      n ≤ table.length → table.length - n < fuel →
      ∃ tr,
        scanLoop table fuel ((table.drop n).take pageSize) sk acc n reqs
            = some ((table.drop n).foldl processEntry acc, table.length,
                reqs + numPages (table.length - n), tr)
          ∧ (tr.map Prod.snd).join = table.drop n
          ∧ (∀ p ∈ tr, p.2.length ≤ pageSize)
          ∧ List.Chain' chained tr
          ∧ ∃ rest, tr = (sk, (table.drop n).take pageSize) :: rest := by
  intro fuel
  induction fuel with
  | zero => intro n sk acc reqs hn hf; omega
  | succ fuel ih =>
    intro n sk acc reqs hn hf
    cases hpage : (table.drop n).take pageSize with
    | nil =>
      have hdn : table.drop n = [] := by
        rcases List.take_eq_nil_iff.mp hpage with h | h
        · exact absurd h (by simp [pageSize])
        · exact h
      have hnl : n = table.length :=
        le_antisymm hn (List.drop_eq_nil_iff_le.mp hdn)
      refine ⟨[(sk, [])], ?_, ?_, ?_, ?_, ⟨[], rfl⟩⟩
      · rw [hdn]
        simp only [scanLoop, List.foldl_nil]
        rw [← hnl, Nat.sub_self, numPages_zero, Nat.add_zero]
      · simp [hdn]
      · intro p hp
        rcases List.mem_singleton.mp hp with rfl
        simp [pageSize]
      · exact List.chain'_singleton _
    | cons e es =>
      have hne : table.drop n ≠ [] := by
        intro h
        rw [h] at hpage
        simp at hpage
      have hpos : n < table.length := by
        have := List.length_drop n table
        have hld : (table.drop n).length ≠ 0 := by
          intro h
          exact hne (List.eq_nil_of_length_eq_zero h)
        omega
      have hplen : (e :: es).length = min pageSize (table.length - n) := by
        rw [← hpage, List.length_take, List.length_drop]
      have hplenpos : 0 < (e :: es).length := by simp
      set next := ((e :: es).getLast (List.cons_ne_nil e es)).1 with hnext
      have hlk : lastKey ((table.drop n).take pageSize) = some next := by
        rw [hpage, lastKey, List.getLast?_eq_getLast (e :: es) (List.cons_ne_nil e es)]
        rfl
      have hfetch : fetchAccounts table (some next)
          = (table.drop (n + (e :: es).length)).take pageSize := by
        have := fetch_next table hs n next hlk
        rw [hpage] at this
        exact this
      set n2 := n + (e :: es).length with hn2def
      have hn2le : n2 ≤ table.length := by
        rw [hn2def, hplen]
        omega
      have hn2f : table.length - n2 < fuel := by
        rw [hn2def]
        omega
      obtain ⟨tr2, heq2, hjoin2, hlen2, hchain2, rest2, hhead2⟩ :=
        ih n2 (some next) ((e :: es).foldl processEntry acc) (reqs + 1) hn2le hn2f
      have hsplit : table.drop n = (e :: es) ++ table.drop n2 := by
        have := drop_split_page table n
        rw [hpage] at this
        exact this
      refine ⟨(sk, e :: es) :: tr2, ?_, ?_, ?_, ?_, ⟨tr2, rfl⟩⟩
      · simp only [scanLoop]
        rw [hfetch, heq2]
        have hfold : (table.drop n).foldl processEntry acc
            = (table.drop n2).foldl processEntry ((e :: es).foldl processEntry acc) := by
          rw [hsplit, List.foldl_append]
        have hreq : reqs + numPages (table.length - n)
            = reqs + 1 + numPages (table.length - n2) := by
          have hstep := numPages_step (table.length - n) (by omega)
          have hsub : table.length - n2 = table.length - n - min pageSize (table.length - n) := by
            rw [hn2def, hplen]
            omega
          rw [hstep, ← hsub]
          omega
        rw [hfold, hreq]
      · simp only [List.map_cons, List.join_cons, hjoin2]
        exact hsplit.symm
      · intro p hp
        rcases List.mem_cons.mp hp with rfl | hp2
        · rw [hplen]
          simp only [min_le_iff]
          exact Or.inl le_rfl
        · exact hlen2 p hp2
      · rw [hhead2]
        refine List.chain'_cons.mpr ⟨?_, by rw [← hhead2]; exact hchain2⟩
        refine ⟨List.cons_ne_nil e es, ?_⟩
        rw [lastKey, List.getLast?_eq_getLast (e :: es) (List.cons_ne_nil e es)]
        rfl

/-- The account scan exactly as invoked by `calculateTokenInfo` (first request
with no start key, request counter starting at 1), fully characterized for a
snapshot table in storage key order. -/
lemma scan_run (table : List Entry) (hs : table.Pairwise keyLt) :
    ∃ tr,
      scanLoop table (table.length + 1) (fetchAccounts table none) none ⟨0, 0, 0⟩ 0 1
          = some (table.foldl processEntry ⟨0, 0, 0⟩, table.length,
              1 + numPages table.length, tr)
        ∧ (tr.map Prod.snd).join = table
        ∧ (∀ p ∈ tr, p.2.length ≤ pageSize)
        ∧ List.Chain' chained tr
        ∧ ∃ rest, tr = (none, table.take pageSize) :: rest := by
  have h := scanLoop_spec table hs (table.length + 1) 0 none ⟨0, 0, 0⟩ 1
    (Nat.zero_le _) (by omega)
  simpa [fetchAccounts] using h

/-- Closed form of the account fold: each accumulator is its starting value
plus the exact sum of that accumulator's per-entry contributions. -/
lemma foldl_processEntry_spec (l : List Entry) (acc : RunningTotals) :
    l.foldl processEntry acc =
      { runningTotal := acc.runningTotal + (l.map (fun e => e.2.free + e.2.reserved)).sum
        runningLockedUp :=
          acc.runningLockedUp + (l.map (fun e => max e.2.miscFrozen e.2.feeFrozen)).sum
        runningReserved := acc.runningReserved + (l.map (fun e => e.2.reserved)).sum } := by
  induction l generalizing acc with
  | nil => simp
  | cons e t ih =>
    rw [List.foldl_cons, ih]
    simp only [List.map_cons, List.sum_cons, processEntry, RunningTotals.mk.injEq]
    refine ⟨by omega, by omega, by omega⟩

/-- Folding entries never decreases any of the three accumulators. -/
lemma foldl_processEntry_le (l : List Entry) (acc : RunningTotals) :
    acc.runningTotal ≤ (l.foldl processEntry acc).runningTotal
      ∧ acc.runningLockedUp ≤ (l.foldl processEntry acc).runningLockedUp
      ∧ acc.runningReserved ≤ (l.foldl processEntry acc).runningReserved := by
  rw [foldl_processEntry_spec]
  exact ⟨Nat.le_add_right _ _, Nat.le_add_right _ _, Nat.le_add_right _ _⟩

/-- The reduce of `unbonding`, started from `some a`, over entries whose
ledger value is present, returns `a` plus the exact sum of chunk sums. -/
lemma unbonding_foldl_present (ledgers : List LedgerEntry) :
    ∀ (a : Nat), (∀ e ∈ ledgers, e.2 ≠ none) →
      ledgers.foldl
          (fun acc e =>
            match acc, e.2 with
            | some a, some l => some (a + chunkSum l)
            | _, _ => none)
          (some a)
        = some (a + (ledgers.map (fun e => (e.2.map chunkSum).getD 0)).sum) := by
  induction ledgers with
  | nil => intro a _; simp
  | cons e t ih =>
    intro a h
    obtain ⟨l, hl⟩ := Option.ne_none_iff_exists'.mp (h e (List.mem_cons_self e t))
    rw [List.foldl_cons, hl]
    have := ih (a + chunkSum l) (fun x hx => h x (List.mem_cons_of_mem e hx))
    rw [this]
    simp [hl, Nat.add_assoc]

/-- Once the `unbonding` reduce has hit an absent value, it stays `none`. -/
lemma unbonding_foldl_none (ledgers : List LedgerEntry) :
    ledgers.foldl
        (fun acc e =>
          match acc, e.2 with
          | some a, some l => some (a + chunkSum l)
          | _, _ => none)
        none
      = none := by
  induction ledgers with
  | nil => rfl
  | cons e t ih =>
    rw [List.foldl_cons]
    cases e.2 <;> exact ih

/-- An absent ledger value anywhere in the table makes `unbonding` fail. -/
lemma unbonding_absent (pre post : List LedgerEntry) (k : Nat) :
    unbonding (pre ++ (k, none) :: post) = none := by
  rw [unbonding, List.foldl_append, List.foldl_cons]
  cases pre.foldl
      (fun acc e =>
        match acc, e.2 with
        | some a, some l => some (a + chunkSum l)
        | _, _ => none)
      (some 0) with
  | none => exact unbonding_foldl_none post
  | some a => exact unbonding_foldl_none post

/-! Claim theorems. -/

/-- C1: for every account table (in storage key order) with N entries, the
account aggregation loop that chains each page's last-entry key into the next
request, stopping at the first empty page, processes every entry exactly once
— the pages of the request trace concatenate back to the whole table — and
the final processed count equals N, however the entries fall across pages. -/
theorem scan_processes_every_entry_once (table : List Entry)
    (hs : table.Pairwise keyLt) :
    ∃ acc reqs tr,
      scanLoop table (table.length + 1) (fetchAccounts table none) none ⟨0, 0, 0⟩ 0 1
          = some (acc, table.length, reqs, tr)
        ∧ (tr.map Prod.snd).join = table := by
  obtain ⟨tr, heq, hjoin, -⟩ := scan_run table hs
  exact ⟨_, _, tr, heq, hjoin⟩

/-- Witness for C1 at a concrete three-entry table. -/
theorem scan_processes_every_entry_once_witness :
    ([((0 : Nat), (⟨1, 0, 0, 0⟩ : AccountData)), (1, ⟨2, 0, 0, 0⟩),
        (2, ⟨3, 0, 0, 0⟩)] : List Entry).Pairwise keyLt
      ∧ ∃ acc reqs tr,
          scanLoop [((0 : Nat), (⟨1, 0, 0, 0⟩ : AccountData)), (1, ⟨2, 0, 0, 0⟩), (2, ⟨3, 0, 0, 0⟩)]
              (List.length [((0 : Nat), (⟨1, 0, 0, 0⟩ : AccountData)), (1, ⟨2, 0, 0, 0⟩), (2, ⟨3, 0, 0, 0⟩)] + 1)
              (fetchAccounts [((0 : Nat), (⟨1, 0, 0, 0⟩ : AccountData)), (1, ⟨2, 0, 0, 0⟩), (2, ⟨3, 0, 0, 0⟩)] none)
              none ⟨0, 0, 0⟩ 0 1
            = some (acc, 3, reqs, tr)
          ∧ (tr.map Prod.snd).join
            = [((0 : Nat), (⟨1, 0, 0, 0⟩ : AccountData)), (1, ⟨2, 0, 0, 0⟩), (2, ⟨3, 0, 0, 0⟩)] :=
  ⟨by decide, scan_processes_every_entry_once _ (by decide)⟩

/-- C2: the aggregator folds each entry by adding free + reserved to the
total, the larger of the two frozen fields (never their sum) to lockedUp, and
reserved to reserved; the spec's two-entry example composes to
total = 17, lockedUp = 7, reserved = 6, and an entry with miscFrozen = 100,
feeFrozen = 40 contributes exactly 100 to lockedUp. -/
theorem fold_rule_max_not_sum :
    (∀ (acc : RunningTotals) (e : Entry),
        processEntry acc e
          = { runningTotal := acc.runningTotal + (e.2.free + e.2.reserved)
              runningLockedUp := acc.runningLockedUp + max e.2.miscFrozen e.2.feeFrozen
              runningReserved := acc.runningReserved + e.2.reserved })
      ∧ calculateTokenInfo
            [((0 : Nat), { free := 10, feeFrozen := 7, miscFrozen := 3, reserved := 5 }),
             (1, { free := 1, feeFrozen := 0, miscFrozen := 0, reserved := 1 })] []
          = some { lockedUp := 7, total := 17, reserved := 6, unbonding := 0 }
      ∧ ∀ (acc : RunningTotals) (k : Nat),
          (processEntry acc
              (k, { free := 0, feeFrozen := 40, miscFrozen := 100, reserved := 0 })).runningLockedUp
            = acc.runningLockedUp + 100 := by
  refine ⟨fun acc e => rfl, by decide, fun acc k => ?_⟩
  simp [processEntry, max]

/-- C3 counterexample: on the spec's three ledger entries — the third with an
absent ledger value — `unbonding` hits the `unwrap()` throw and fails; it does
not skip the entry and return 8. -/
theorem unbonding_absent_entry_counterexample :
    unbonding [(0, some ⟨[⟨5⟩, ⟨3⟩]⟩), (1, some ⟨[]⟩), (2, none)] ≠ some 8
      ∧ unbonding [(0, some ⟨[⟨5⟩, ⟨3⟩]⟩), (1, some ⟨[]⟩), (2, none)] = none :=
  ⟨by decide, by decide⟩

/-- C3 amended: the unbonding aggregator returns the sum over all ledger
entries of every UnlockChunk value whenever every entry's ledger value is
present, entries with an empty unlocking list contributing zero; an entry
whose ledger value is absent makes the aggregation fail (the `unwrap()`
throw) instead of being skipped; and the spec's two present entries sum
to 8. -/
theorem unbonding_sums_present_entries :
    (∀ ledgers : List LedgerEntry, (∀ e ∈ ledgers, e.2 ≠ none) →
        unbonding ledgers
          = some ((ledgers.map (fun e => (e.2.map chunkSum).getD 0)).sum))
      ∧ unbonding [(0, some ⟨[⟨5⟩, ⟨3⟩]⟩), (1, some ⟨[]⟩)] = some 8
      ∧ ∀ (pre post : List LedgerEntry) (k : Nat),
          unbonding (pre ++ (k, none) :: post) = none := by
  refine ⟨fun ledgers h => ?_, by decide, unbonding_absent⟩
  rw [unbonding]
  simpa using unbonding_foldl_present ledgers 0 h

/-- Witness for C3's amended claim on a concrete all-present ledger table. -/
theorem unbonding_sums_present_entries_witness :
    (∀ e ∈ ([(0, some ⟨[⟨5⟩, ⟨3⟩]⟩), (1, some ⟨[]⟩)] : List LedgerEntry), e.2 ≠ none)
      ∧ unbonding ([(0, some ⟨[⟨5⟩, ⟨3⟩]⟩), (1, some ⟨[]⟩)] : List LedgerEntry)
          = some ((([(0, some ⟨[⟨5⟩, ⟨3⟩]⟩), (1, some ⟨[]⟩)] : List LedgerEntry).map
              (fun e => (e.2.map chunkSum).getD 0)).sum) :=
  ⟨by decide, unbonding_sums_present_entries.1 _ (by decide)⟩

/-- C4 counterexample: an account whose balance components sum past 2^128
(the spec's stated minimum wide-integer range) is accumulated exactly and the
run completes with that exact value — no OverflowError is raised anywhere,
because JavaScript bigint arithmetic is arbitrary-precision; the sum
2^129 = 680564733841876926926749214863536422912 is returned unreduced. -/
theorem accumulation_no_overflow_error_counterexample :
    calculateTokenInfo
        [((0 : Nat),
          { free := 340282366920938463463374607431768211456, feeFrozen := 0,
            miscFrozen := 0, reserved := 340282366920938463463374607431768211456 })] []
      = some { lockedUp := 0, total := 680564733841876926926749214863536422912,
               reserved := 340282366920938463463374607431768211456, unbonding := 0 } := by
  decide

/-- C4 amended: all accumulation in the account aggregator is exact
arbitrary-precision unsigned integer arithmetic: for every snapshot table the
scan returns exactly the mathematical sums of the per-entry contributions,
never a value reduced modulo any machine width, so no silent wraparound
occurs for any inputs; the integer range being unbounded, no overflow
condition arises and no OverflowError exists to be raised. -/
theorem accumulation_exact_arithmetic (table : List Entry)
    (hs : table.Pairwise keyLt) :
    (∃ count reqs tr,
        scanLoop table (table.length + 1) (fetchAccounts table none) none ⟨0, 0, 0⟩ 0 1
          = some ({ runningTotal := (table.map (fun e => e.2.free + e.2.reserved)).sum,
                    runningLockedUp := (table.map (fun e => max e.2.miscFrozen e.2.feeFrozen)).sum,
                    runningReserved := (table.map (fun e => e.2.reserved)).sum },
              count, reqs, tr))
      ∧ ∀ ledgers : List LedgerEntry, (∀ e ∈ ledgers, e.2 ≠ none) →
          unbonding ledgers
            = some ((ledgers.map (fun e => (e.2.map chunkSum).getD 0)).sum) := by
  constructor
  · obtain ⟨tr, heq, -⟩ := scan_run table hs
    rw [foldl_processEntry_spec] at heq
    simp only [Nat.zero_add] at heq
    exact ⟨_, _, tr, heq⟩
  · intro ledgers h
    rw [unbonding]
    simpa using unbonding_foldl_present ledgers 0 h

/-- Witness for C4's amended claim at a concrete table summing past 2^128:
the returned total is the exact sum 2^129. -/
theorem accumulation_exact_arithmetic_witness :
    ([((0 : Nat),
        (⟨340282366920938463463374607431768211456, 0, 0,
          340282366920938463463374607431768211456⟩ : AccountData))] : List Entry).Pairwise keyLt
      ∧ ∃ count reqs tr,
          scanLoop
              [((0 : Nat),
                (⟨340282366920938463463374607431768211456, 0, 0,
                  340282366920938463463374607431768211456⟩ : AccountData))]
              (List.length [((0 : Nat),
                (⟨340282366920938463463374607431768211456, 0, 0,
                  340282366920938463463374607431768211456⟩ : AccountData))] + 1)
              (fetchAccounts
                [((0 : Nat),
                  (⟨340282366920938463463374607431768211456, 0, 0,
                    340282366920938463463374607431768211456⟩ : AccountData))] none)
              none ⟨0, 0, 0⟩ 0 1
            = some (⟨680564733841876926926749214863536422912, 0,
                340282366920938463463374607431768211456⟩, count, reqs, tr) :=
  ⟨by decide, (accumulation_exact_arithmetic _ (by decide)).1⟩

/-- C5: a table with zero entries terminates after exactly one page request
and returns total = lockedUp = reserved = 0 (with a count of 0 and the single
trace item being the initial keyless request answered by the empty page). -/
theorem empty_table_one_request :
    scanLoop ([] : List Entry) (List.length ([] : List Entry) + 1)
        (fetchAccounts ([] : List Entry) none) none ⟨0, 0, 0⟩ 0 1
      = some (⟨0, 0, 0⟩, 0, 1, [(none, [])]) := rfl

/-- C6: every page returned during the scan holds at most pageSize = 1000
entries, and the request trace is chained: after every nonempty page, the
start key of the following request equals the key of that page's last
entry. -/
theorem pages_bounded_and_chained (table : List Entry)
    (hs : table.Pairwise keyLt) :
    (∀ sk, (fetchAccounts table sk).length ≤ pageSize)
      ∧ ∃ acc count reqs tr,
          scanLoop table (table.length + 1) (fetchAccounts table none) none ⟨0, 0, 0⟩ 0 1
              = some (acc, count, reqs, tr)
            ∧ List.Chain' chained tr
            ∧ ∀ p ∈ tr, p.2.length ≤ pageSize := by
  constructor
  · intro sk
    cases sk with
    | none => rw [fetchAccounts, List.length_take]; exact min_le_left _ _
    | some k => rw [fetchAccounts, List.length_take]; exact min_le_left _ _
  · obtain ⟨tr, heq, -, hlen, hchain, -⟩ := scan_run table hs
    exact ⟨_, _, _, tr, heq, hchain, hlen⟩

/-- Witness for C6 at a concrete two-entry table. -/
theorem pages_bounded_and_chained_witness :
    ([((0 : Nat), (⟨4, 0, 0, 0⟩ : AccountData)), (1, ⟨9, 0, 0, 0⟩)] : List Entry).Pairwise keyLt
      ∧ ((∀ sk, (fetchAccounts [((0 : Nat), (⟨4, 0, 0, 0⟩ : AccountData)), (1, ⟨9, 0, 0, 0⟩)] sk).length ≤ pageSize)
          ∧ ∃ acc count reqs tr,
              scanLoop [((0 : Nat), (⟨4, 0, 0, 0⟩ : AccountData)), (1, ⟨9, 0, 0, 0⟩)]
                  (List.length [((0 : Nat), (⟨4, 0, 0, 0⟩ : AccountData)), (1, ⟨9, 0, 0, 0⟩)] + 1)
                  (fetchAccounts [((0 : Nat), (⟨4, 0, 0, 0⟩ : AccountData)), (1, ⟨9, 0, 0, 0⟩)] none)
                  none ⟨0, 0, 0⟩ 0 1
                = some (acc, count, reqs, tr)
              ∧ List.Chain' chained tr
              ∧ ∀ p ∈ tr, p.2.length ≤ pageSize) :=
  ⟨by decide, pages_bounded_and_chained _ (by decide)⟩

/-- C7: the composition is a deterministic function of the snapshot: two runs
over equal table and ledger contents return identical SummaryResult values. -/
theorem summary_deterministic (t1 t2 : List Entry) (l1 l2 : List LedgerEntry)
    (ht : t1 = t2) (hl : l1 = l2) :
    calculateTokenInfo t1 l1 = calculateTokenInfo t2 l2 := by
  rw [ht, hl]

/-- Witness for C7 at a concrete snapshot run twice. -/
theorem summary_deterministic_witness :
    ([((5 : Nat), (⟨2, 1, 3, 4⟩ : AccountData))] : List Entry)
        = [((5 : Nat), (⟨2, 1, 3, 4⟩ : AccountData))]
      ∧ ([((7 : Nat), some (⟨[⟨6⟩]⟩ : StakingLedger))] : List LedgerEntry)
        = [((7 : Nat), some (⟨[⟨6⟩]⟩ : StakingLedger))]
      ∧ calculateTokenInfo [((5 : Nat), (⟨2, 1, 3, 4⟩ : AccountData))]
            [((7 : Nat), some (⟨[⟨6⟩]⟩ : StakingLedger))]
          = calculateTokenInfo [((5 : Nat), (⟨2, 1, 3, 4⟩ : AccountData))]
            [((7 : Nat), some (⟨[⟨6⟩]⟩ : StakingLedger))] :=
  ⟨rfl, rfl, summary_deterministic _ _ _ _ rfl rfl⟩

/-- C8: running the ledger aggregator before the account aggregator yields
the same SummaryResult as the source's account-then-ledger order, for every
snapshot. -/
theorem aggregator_order_immaterial (table : List Entry) (ledgers : List LedgerEntry) :
    calculateTokenInfo table ledgers = composeLedgerFirst table ledgers := by
  rw [calculateTokenInfo, composeLedgerFirst]
  cases scanLoop table (table.length + 1) (fetchAccounts table none) none ⟨0, 0, 0⟩ 0 1 with
  | none => cases unbonding ledgers <;> rfl
  | some r =>
    obtain ⟨acc, count, reqs, tr⟩ := r
    cases unbonding ledgers <;> rfl

/-- C9: the three accumulators are monotonically non-decreasing across the
scan: after any prefix of the processed entry stream, each accumulator is at
least its value after any shorter prefix (all balance components are
non-negative, being `Nat`). -/
theorem accumulators_monotone (entries : List Entry) (acc : RunningTotals)
    (i j : Nat) (hij : i ≤ j) :
    ((entries.take i).foldl processEntry acc).runningTotal
        ≤ ((entries.take j).foldl processEntry acc).runningTotal
      ∧ ((entries.take i).foldl processEntry acc).runningLockedUp
        ≤ ((entries.take j).foldl processEntry acc).runningLockedUp
      ∧ ((entries.take i).foldl processEntry acc).runningReserved
        ≤ ((entries.take j).foldl processEntry acc).runningReserved := by
  have hj : i + (j - i) = j := by omega
  have hsplit : entries.take j = entries.take i ++ (entries.drop i).take (j - i) := by
    rw [← List.take_add, hj]
  rw [hsplit, List.foldl_append]
  exact foldl_processEntry_le _ _

/-- Witness for C9 on a concrete stream with prefix lengths 1 ≤ 2. -/
theorem accumulators_monotone_witness :
    1 ≤ 2
      ∧ ((([((0 : Nat), (⟨8, 2, 6, 3⟩ : AccountData)), (1, ⟨5, 4, 1, 2⟩)] : List Entry).take 1).foldl
            processEntry ⟨0, 0, 0⟩).runningTotal
          ≤ ((([((0 : Nat), (⟨8, 2, 6, 3⟩ : AccountData)), (1, ⟨5, 4, 1, 2⟩)] : List Entry).take 2).foldl
              processEntry ⟨0, 0, 0⟩).runningTotal
      ∧ ((([((0 : Nat), (⟨8, 2, 6, 3⟩ : AccountData)), (1, ⟨5, 4, 1, 2⟩)] : List Entry).take 1).foldl
            processEntry ⟨0, 0, 0⟩).runningLockedUp
          ≤ ((([((0 : Nat), (⟨8, 2, 6, 3⟩ : AccountData)), (1, ⟨5, 4, 1, 2⟩)] : List Entry).take 2).foldl
              processEntry ⟨0, 0, 0⟩).runningLockedUp
      ∧ ((([((0 : Nat), (⟨8, 2, 6, 3⟩ : AccountData)), (1, ⟨5, 4, 1, 2⟩)] : List Entry).take 1).foldl
            processEntry ⟨0, 0, 0⟩).runningReserved
          ≤ ((([((0 : Nat), (⟨8, 2, 6, 3⟩ : AccountData)), (1, ⟨5, 4, 1, 2⟩)] : List Entry).take 2).foldl
              processEntry ⟨0, 0, 0⟩).runningReserved :=
  ⟨by decide, accumulators_monotone _ ⟨0, 0, 0⟩ 1 2 (by decide)⟩

/-- C10: for a table with N entries served at page size 1000, the scan issues
exactly ceil(N/1000) + 1 page requests — the loop always ends with one final
request answered by an empty page, also when the last nonempty page is
exactly full, and an empty table takes exactly one request. -/
theorem request_count_ceil (table : List Entry) (hs : table.Pairwise keyLt) :
    ∃ acc tr,
      scanLoop table (table.length + 1) (fetchAccounts table none) none ⟨0, 0, 0⟩ 0 1
        = some (acc, table.length,
            (table.length + (pageSize - 1)) / pageSize + 1, tr) := by
  obtain ⟨tr, heq, -⟩ := scan_run table hs
  rw [Nat.add_comm 1 (numPages table.length)] at heq
  exact ⟨_, tr, heq⟩

/-- Witness for C10 at a concrete three-entry table: ceil(3/1000) + 1 = 2
requests. -/
theorem request_count_ceil_witness :
    ([((0 : Nat), (⟨1, 1, 1, 1⟩ : AccountData)), (1, ⟨2, 2, 2, 2⟩), (2, ⟨3, 3, 3, 3⟩)] : List Entry).Pairwise keyLt
      ∧ ∃ acc tr,
          scanLoop [((0 : Nat), (⟨1, 1, 1, 1⟩ : AccountData)), (1, ⟨2, 2, 2, 2⟩), (2, ⟨3, 3, 3, 3⟩)]
              (List.length [((0 : Nat), (⟨1, 1, 1, 1⟩ : AccountData)), (1, ⟨2, 2, 2, 2⟩), (2, ⟨3, 3, 3, 3⟩)] + 1)
              (fetchAccounts [((0 : Nat), (⟨1, 1, 1, 1⟩ : AccountData)), (1, ⟨2, 2, 2, 2⟩), (2, ⟨3, 3, 3, 3⟩)] none)
              none ⟨0, 0, 0⟩ 0 1
            = some (acc, 3, (3 + (pageSize - 1)) / pageSize + 1, tr) :=
  ⟨by decide, request_count_ceil _ (by decide)⟩

end IssuanceCalc
